import Mathlib

/-!
Shallow embedding of the EVM logging instructions
(`src/src/ethereum/frontier/vm/instructions/log.py`, function `log_n` and its
arity specializations `log0` .. `log4`).

Machine words (256-bit stack values) are modelled as `Nat`; the source widens
the popped offset to an unbounded `Uint` before any range arithmetic, so all
arithmetic here is plain `Nat` arithmetic.  Memory is a byte list, the log
sequence a list of records.  Exceptions raised by the Python code are modelled
by returning the frame as mutated so far together with an error marker, which
mirrors the in-place mutation semantics of the source: mutations performed
before an exception is raised are retained in the frame.

The collaborators imported by `log.py` (`pop`, `subtract_gas`,
`calculate_gas_extend_memory`, `extend_memory`, `memory_read_bytes`,
`to_be_bytes32`, the `Log` and `Evm` record types and the gas constants) are
not part of the given sources; they are modelled from the specification, each
with a doc comment saying so.
-/

/-- Error conditions of the executor: stack underflow and out of gas. -/
inductive EvmError where
  | stackUnderflow
  | outOfGas
deriving DecidableEq

/-- Modelled from the spec: an Event Record holds the emitting address, an
ordered sequence of fixed-width 32-byte topics, and a byte payload. -/
structure Log where
  address : Nat
  topics : List (List Nat)
  data : List Nat
deriving DecidableEq

/-- Modelled from the spec: the execution frame holds the stack (top first),
the linear memory (byte list), the remaining gas, the current contract
address and the append-only log sequence. -/
structure Evm where
  stack : List Nat
  memory : List Nat
  gas_left : Nat
  current : Nat
  logs : List Log
deriving DecidableEq

/-- Modelled from the spec: fixed base fee for emitting any event. -/
def GAS_LOG : Nat := 375

/-- Modelled from the spec: per-byte fee for the payload. -/
def GAS_LOG_DATA : Nat := 8

/-- Modelled from the spec: per-topic fee. -/
def GAS_LOG_TOPIC : Nat := 375

/-- Modelled from the spec: per-word linear coefficient of the memory cost. -/
def GAS_MEMORY : Nat := 3

/-- Modelled from the spec: `Stack.pop` removes and returns the top word,
failing with stack-underflow when the stack is empty. -/
def pop (stack : List Nat) : Except EvmError (Nat × List Nat) :=
  match stack with
  | [] => Except.error EvmError.stackUnderflow
  | x :: rest => Except.ok (x, rest)

/-- Modelled from the spec: `GasLedger.debit` fails with out-of-gas exactly
when the amount exceeds the remaining balance, else deducts it. -/
def subtract_gas (gas_left amount : Nat) : Except EvmError Nat :=
  if gas_left < amount then Except.error EvmError.outOfGas
  else Except.ok (gas_left - amount)

/-- Round a byte count up to the next multiple of the 32-byte word size. -/
def ceil32 (n : Nat) : Nat := ((n + 31) / 32) * 32

/-- Modelled from the spec: total (quadratic-leaning) gas cost of a memory of
the given byte size, charged per 32-byte word. -/
def calculate_memory_gas_cost (size_in_bytes : Nat) : Nat :=
  let size_in_words := ceil32 size_in_bytes / 32
  size_in_words * GAS_MEMORY + size_in_words * size_in_words / 512

/-- Modelled from the spec: the Memory-Growth Cost Oracle.  Pure function of
the current memory extent and the requested range; returns zero when the
range `[start, start+size)` already lies within current memory bounds,
otherwise the incremental cost of extending the memory to cover it. -/
def calculate_gas_extend_memory (memory : List Nat) (start size : Nat) : Nat :=
  if size = 0 then 0
  else if start + size ≤ memory.length then 0
  else calculate_memory_gas_cost (start + size)
    - calculate_memory_gas_cost memory.length

/-- Modelled from the spec: `Memory.extend` grows memory monotonically
(zero-filled) so that `[start, start+size)` is addressable; no-op when the
range is already covered (in particular for an empty range). -/
def extend_memory (memory : List Nat) (start size : Nat) : List Nat :=
  if size = 0 then memory
  else if start + size ≤ memory.length then memory
  else memory ++ List.replicate (start + size - memory.length) 0

/-- Modelled from the spec: `Memory.read` returns the bytes of
`[start, start+size)`; the range is guaranteed addressable by a prior extend. -/
def memory_read_bytes (memory : List Nat) (start size : Nat) : List Nat :=
  (memory.drop start).take size

/-- Modelled from the spec: reinterpret a 256-bit word as a fixed-width
32-byte big-endian topic value (`U256.to_be_bytes32`). -/
def to_be_bytes32 (x : Nat) : List Nat :=
  (List.range 32).map (fun i => x / 256 ^ (31 - i) % 256)

/-- The topic-popping loop of `log_n`: pop `n` words, converting each with
`to_be_bytes32` and collecting them in pop order.  On underflow the error
carries the stack as left after the partial pops (all words consumed),
mirroring the in-place pops performed before the exception. -/
def popTopics (stack : List Nat) (n : Nat) :
    Except (EvmError × List Nat) (List (List Nat) × List Nat) :=
  match n with
  | 0 => Except.ok ([], stack)
  | Nat.succ m =>
    match stack with
    | [] => Except.error (EvmError.stackUnderflow, [])
    | t :: rest =>
      match popTopics rest m with
      | Except.error e => Except.error e
      | Except.ok (topics, rest2) =>
        Except.ok (to_be_bytes32 t :: topics, rest2)

/-- The dynamic fee computed by `log_n`: base fee, per-byte data fee,
per-topic fee, and the memory-growth fee of the cost oracle. -/
def log_fee (memory : List Nat) (memory_start_index size num_topics : Nat) :
    Nat :=
  GAS_LOG + GAS_LOG_DATA * size + GAS_LOG_TOPIC * num_topics
    + calculate_gas_extend_memory memory memory_start_index size

/-- Embedding of `log_n` from the source.  Pops offset and size, charges the
fee, extends memory, reads the payload, pops the topics and appends the
record.  The returned frame is the frame as mutated when the call returns or
when the modelled exception is raised; the second component is the error. -/
def log_n (evm : Evm) (num_topics : Nat) : Evm × Option EvmError :=
  match pop evm.stack with
  | Except.error e => (evm, some e)
  | Except.ok (memory_start_index, s1) =>
    match pop s1 with
    | Except.error e => ({ evm with stack := s1 }, some e)
    | Except.ok (size, s2) =>
      let gas_cost := log_fee evm.memory memory_start_index size num_topics
      match subtract_gas evm.gas_left gas_cost with
      | Except.error e => ({ evm with stack := s2 }, some e)
      | Except.ok gas_left =>
        let memory := extend_memory evm.memory memory_start_index size
        let data := memory_read_bytes memory memory_start_index size
        match popTopics s2 num_topics with
        | Except.error (e, s3) =>
          ({ evm with
              stack := s3
              gas_left := gas_left
              memory := memory },
            some e)
        | Except.ok (topics, s3) =>
          let log_entry : Log :=
            { address := evm.current, topics := topics, data := data }
          ({ evm with
              stack := s3
              gas_left := gas_left
              memory := memory
              logs := evm.logs ++ [log_entry] },
            none)

/-- Embedding of `log0 = partial(log_n, num_topics=0)`. -/
def log0 (evm : Evm) : Evm × Option EvmError := log_n evm 0

/-- Embedding of `log1 = partial(log_n, num_topics=1)`. -/
def log1 (evm : Evm) : Evm × Option EvmError := log_n evm 1

/-- Embedding of `log2 = partial(log_n, num_topics=2)`. -/
def log2 (evm : Evm) : Evm × Option EvmError := log_n evm 2

/-- Embedding of `log3 = partial(log_n, num_topics=3)`. -/
def log3 (evm : Evm) : Evm × Option EvmError := log_n evm 3

/-- Embedding of `log4 = partial(log_n, num_topics=4)`. -/
def log4 (evm : Evm) : Evm × Option EvmError := log_n evm 4

/-- Popping `n` topics from a stack of at least `n` words succeeds and yields
the first `n` words, converted, in pop order. -/
theorem popTopics_ok (stack : List Nat) (n : Nat) (h : n ≤ stack.length) :
    popTopics stack n
      = Except.ok ((stack.take n).map to_be_bytes32, stack.drop n) := by
  induction n generalizing stack with
  | zero => simp [popTopics]
  | succ m ih =>
    cases stack with
    | nil => simp at h
    | cons t rest =>
      have hm : m ≤ rest.length := by simpa using h
      simp [popTopics, ih rest hm]

/-- Popping `n` topics from a stack of fewer than `n` words fails with
stack-underflow, after consuming the whole stack. -/
theorem popTopics_underflow (stack : List Nat) (n : Nat)
    (h : stack.length < n) :
    popTopics stack n = Except.error (EvmError.stackUnderflow, []) := by
  induction n generalizing stack with
  | zero => omega
  | succ m ih =>
    cases stack with
    | nil => simp [popTopics]
    | cons t rest =>
      have hm : rest.length < m := by simpa using h
      simp [popTopics, ih rest hm]

/-- Complete characterization of `log_n` on a stack holding at least the
offset and size words: out-of-gas when the balance is short, success when
enough topics remain, and stack-underflow (with the fee already debited and
the memory already extended) otherwise. -/
theorem log_n_cons_cons (offset size : Nat) (rest : List Nat)
    (mem : List Nat) (g a : Nat) (lgs : List Log) (n : Nat) :
    log_n ⟨offset :: size :: rest, mem, g, a, lgs⟩ n =
      if g < log_fee mem offset size n then
        (⟨rest, mem, g, a, lgs⟩, some EvmError.outOfGas)
      else if n ≤ rest.length then
        (⟨rest.drop n, extend_memory mem offset size,
            g - log_fee mem offset size n, a,
            lgs ++ [⟨a, (rest.take n).map to_be_bytes32,
              memory_read_bytes (extend_memory mem offset size) offset size⟩]⟩,
          none)
      else
        (⟨[], extend_memory mem offset size,
            g - log_fee mem offset size n, a, lgs⟩,
          some EvmError.stackUnderflow) := by
  by_cases hg : g < log_fee mem offset size n
  · simp [log_n, pop, subtract_gas, hg]
  · by_cases hn : n ≤ rest.length
    · simp [log_n, pop, subtract_gas, hg, hn, popTopics_ok rest n hn]
    · simp [log_n, pop, subtract_gas, hg, hn,
        popTopics_underflow rest n (by omega)]

/-- On an empty stack `log_n` fails immediately, mutating nothing. -/
theorem log_n_nil (mem : List Nat) (g a : Nat) (lgs : List Log) (n : Nat) :
    log_n ⟨[], mem, g, a, lgs⟩ n
      = (⟨[], mem, g, a, lgs⟩, some EvmError.stackUnderflow) := by
  simp [log_n, pop]

/-- On a one-word stack `log_n` fails on the size pop: only the offset word
has been consumed, no gas charged, memory and logs untouched. -/
theorem log_n_single (x : Nat) (mem : List Nat) (g a : Nat) (lgs : List Log)
    (n : Nat) :
    log_n ⟨[x], mem, g, a, lgs⟩ n
      = (⟨[], mem, g, a, lgs⟩, some EvmError.stackUnderflow) := by
  simp [log_n, pop]

/-- Extending memory for a nonempty range makes the range addressable. -/
theorem extend_memory_covers (memory : List Nat) (start size : Nat)
    (h : size ≠ 0) :
    start + size ≤ (extend_memory memory start size).length := by
  unfold extend_memory
  by_cases hb : start + size ≤ memory.length
  · simp [h, hb]
  · simp only [h, hb, if_false, if_neg, List.length_append,
      List.length_replicate]
    omega

/-- Reading an addressable range returns exactly `size` bytes. -/
theorem memory_read_bytes_length (memory : List Nat) (start size : Nat)
    (h : start + size ≤ memory.length) :
    (memory_read_bytes memory start size).length = size := by
  simp [memory_read_bytes]
  omega

/-- After the extend performed by `log_n`, the payload read has exactly the
requested length. -/
theorem read_after_extend_length (memory : List Nat) (start size : Nat) :
    (memory_read_bytes (extend_memory memory start size) start size).length
      = size := by
  by_cases h : size = 0
  · subst h
    simp [memory_read_bytes]
  · exact memory_read_bytes_length _ _ _ (extend_memory_covers memory start size h)

/-- Word-rounding is monotone. -/
theorem ceil32_mono (m n : Nat) (h : m ≤ n) : ceil32 m ≤ ceil32 n :=
  Nat.mul_le_mul_right _ (Nat.div_le_div_right (Nat.add_le_add_right h 31))

/-- The total memory cost is monotone in the memory size. -/
theorem calculate_memory_gas_cost_mono (m n : Nat) (h : m ≤ n) :
    calculate_memory_gas_cost m ≤ calculate_memory_gas_cost n := by
  simp only [calculate_memory_gas_cost]
  have hw : ceil32 m / 32 ≤ ceil32 n / 32 :=
    Nat.div_le_div_right (ceil32_mono m n h)
  exact Nat.add_le_add (Nat.mul_le_mul_right _ hw)
    (Nat.div_le_div_right (Nat.mul_le_mul hw hw))

/-- The memory-growth fee is monotone in the requested size. -/
theorem calculate_gas_extend_memory_mono (memory : List Nat)
    (start size1 size2 : Nat) (h : size1 ≤ size2) :
    calculate_gas_extend_memory memory start size1
      ≤ calculate_gas_extend_memory memory start size2 := by
  unfold calculate_gas_extend_memory
  by_cases h1 : size1 = 0
  · simp [h1]
  · have h2 : size2 ≠ 0 := by omega
    by_cases hb1 : start + size1 ≤ memory.length
    · simp [h1, hb1]
    · have hb2 : ¬ start + size2 ≤ memory.length := by omega
      simp only [h1, h2, hb1, hb2, if_false, if_neg, ite_false]
      exact Nat.sub_le_sub_right
        (calculate_memory_gas_cost_mono _ _ (by omega)) _

/-- The fee is at least the base fee, hence positive. -/
theorem log_fee_pos (memory : List Nat) (offset size n : Nat) :
    0 < log_fee memory offset size n := by
  simp only [log_fee, GAS_LOG]
  omega

/-- The memory-growth fee is zero when the requested range already lies
within the current memory bounds. -/
theorem calculate_gas_extend_memory_zero (memory : List Nat)
    (start size : Nat) (h : start + size ≤ memory.length) :
    calculate_gas_extend_memory memory start size = 0 := by
  unfold calculate_gas_extend_memory
  by_cases h0 : size = 0 <;> simp [h0, h]

/-- C1, counterexample: with stack `[0, 0]` (two words) and `topicCount = 1`
the call does fail with stack-underflow, yet gas has been charged: the claim
that no state is mutated before the underflow is detected is false. -/
theorem log_n_underflow_not_atomic_cex :
    (⟨[0, 0], [], 1000, 7, []⟩ : Evm).stack.length < 2 + 1
      ∧ (log_n ⟨[0, 0], [], 1000, 7, []⟩ 1).2 = some EvmError.stackUnderflow
      ∧ (log_n ⟨[0, 0], [], 1000, 7, []⟩ 1).1.gas_left
          ≠ (⟨[0, 0], [], 1000, 7, []⟩ : Evm).gas_left := by
  decide

/-- C1, amended: with fewer than `2 + topicCount` stack words the call always
fails and never touches the log sequence; only an empty stack leaves the
frame entirely unmutated.  With one word only that word is popped; with at
least two words the offset/size pops are retained and, whenever the balance
covers the fee, the fee is debited and memory extended before the underflow
surfaces, the remaining words having been consumed as topics. -/
theorem log_n_underflow_amended (evm : Evm) (n : Nat)
    (h : evm.stack.length < 2 + n) :
    (log_n evm n).2.isSome = true
      ∧ (log_n evm n).1.logs = evm.logs
      ∧ (evm.stack = [] → log_n evm n = (evm, some EvmError.stackUnderflow))
      ∧ (∀ x : Nat, evm.stack = [x] →
          log_n evm n
            = ({ evm with stack := [] }, some EvmError.stackUnderflow))
      ∧ (∀ offset size : Nat, ∀ rest : List Nat,
          evm.stack = offset :: size :: rest →
          log_fee evm.memory offset size n ≤ evm.gas_left →
          log_n evm n =
            ({ evm with
                stack := ([] : List Nat)
                gas_left := evm.gas_left - log_fee evm.memory offset size n
                memory := extend_memory evm.memory offset size },
              some EvmError.stackUnderflow)) := by
  obtain ⟨st, mem, g, a, lgs⟩ := evm
  replace h : st.length < 2 + n := h
  match st with
  | [] => simp [log_n_nil]
  | [x] => simp [log_n_single]
  | x :: y :: st2 =>
    have hn : ¬ n ≤ st2.length := by
      simp only [List.length_cons] at h
      omega
    rw [log_n_cons_cons]
    by_cases hg : g < log_fee mem x y n
    · rw [if_pos hg]
      refine ⟨rfl, rfl, by simp, by simp, ?_⟩
      intro offset size rest heq hfee
      injection heq with h1 heq2
      injection heq2 with h2 h3
      subst h1
      subst h2
      subst h3
      replace hfee : log_fee mem x y n ≤ g := hfee
      exact absurd hfee (by omega)
    · rw [if_neg hg, if_neg hn]
      refine ⟨rfl, rfl, by simp, by simp, ?_⟩
      intro offset size rest heq hfee
      injection heq with h1 heq2
      injection heq2 with h2 h3
      subst h1
      subst h2
      subst h3
      rfl

/-- C2: on a stack holding at least `2 + topicCount` words whose remaining
topics suffice, and with a gas balance covering the fee, `log_n` succeeds and
appends exactly one record, whose topic count is `num_topics` and whose
payload length equals the popped size operand. -/
theorem log_n_success_appends (evm : Evm) (offset size : Nat)
    (rest : List Nat) (n : Nat)
    (hstack : evm.stack = offset :: size :: rest)
    (htopics : n ≤ rest.length)
    (hgas : log_fee evm.memory offset size n ≤ evm.gas_left) :
    (log_n evm n).2 = none
      ∧ (∃ r : Log, (log_n evm n).1.logs = evm.logs ++ [r]
          ∧ r.topics.length = n ∧ r.data.length = size) := by
  obtain ⟨st, mem, g, a, lgs⟩ := evm
  replace hstack : st = offset :: size :: rest := hstack
  subst hstack
  replace hgas : log_fee mem offset size n ≤ g := hgas
  rw [log_n_cons_cons, if_neg (by omega), if_pos htopics]
  refine ⟨rfl,
    ⟨⟨a, (rest.take n).map to_be_bytes32,
        memory_read_bytes (extend_memory mem offset size) offset size⟩,
      rfl, ?_, read_after_extend_length mem offset size⟩⟩
  simp only [List.length_map, List.length_take]
  omega

/-- C3: the fee debited by `log_n` is exactly the sum of the four terms: the
base fee, the per-byte data fee, the per-topic fee and the memory-growth fee
of the cost oracle, and the oracle term is zero whenever the requested range
already lies within the current memory bounds. -/
theorem log_n_fee_four_terms (evm : Evm) (offset size : Nat)
    (rest : List Nat) (n : Nat)
    (hstack : evm.stack = offset :: size :: rest)
    (hngas : (log_n evm n).2 ≠ some EvmError.outOfGas) :
    (GAS_LOG + GAS_LOG_DATA * size + GAS_LOG_TOPIC * n
        + calculate_gas_extend_memory evm.memory offset size ≤ evm.gas_left
      ∧ (log_n evm n).1.gas_left
        = evm.gas_left - (GAS_LOG + GAS_LOG_DATA * size + GAS_LOG_TOPIC * n
            + calculate_gas_extend_memory evm.memory offset size))
    ∧ (offset + size ≤ evm.memory.length →
        calculate_gas_extend_memory evm.memory offset size = 0) := by
  obtain ⟨st, mem, g, a, lgs⟩ := evm
  replace hstack : st = offset :: size :: rest := hstack
  subst hstack
  rw [log_n_cons_cons] at hngas ⊢
  by_cases hg : g < log_fee mem offset size n
  · rw [if_pos hg] at hngas
    exact absurd rfl hngas
  · have hle : log_fee mem offset size n ≤ g := by omega
    refine ⟨⟨hle, ?_⟩, calculate_gas_extend_memory_zero mem offset size⟩
    rw [if_neg hg]
    by_cases hn : n ≤ rest.length
    · rw [if_pos hn]
      rfl
    · rw [if_neg hn]
      rfl

/-- C4: when the gas balance is below the fee, `log_n` fails with out-of-gas
and the resulting frame differs from the original only in the two words
already popped: the gas balance, the memory, and the log sequence are
unchanged, and no topic word has been consumed. -/
theorem log_n_out_of_gas (evm : Evm) (offset size : Nat) (rest : List Nat)
    (n : Nat) (hstack : evm.stack = offset :: size :: rest)
    (hgas : evm.gas_left < log_fee evm.memory offset size n) :
    log_n evm n = ({ evm with stack := rest }, some EvmError.outOfGas) := by
  obtain ⟨st, mem, g, a, lgs⟩ := evm
  replace hstack : st = offset :: size :: rest := hstack
  subst hstack
  replace hgas : g < log_fee mem offset size n := hgas
  rw [log_n_cons_cons, if_pos hgas]

/-- C5: a single `log_n` call either leaves the log sequence unchanged (every
failure) or, on success, appends exactly one completed record whose topic
count equals the instruction's arity; no partially built record is ever
committed. -/
theorem log_n_record_integrity (evm : Evm) (n : Nat) :
    ((log_n evm n).2.isSome = true ∧ (log_n evm n).1.logs = evm.logs)
    ∨ ((log_n evm n).2 = none ∧ ∃ r : Log,
        (log_n evm n).1.logs = evm.logs ++ [r] ∧ r.topics.length = n) := by
  obtain ⟨st, mem, g, a, lgs⟩ := evm
  match st with
  | [] =>
    left
    simp [log_n_nil]
  | [x] =>
    left
    simp [log_n_single]
  | offset :: size :: rest =>
    rw [log_n_cons_cons]
    by_cases hg : g < log_fee mem offset size n
    · left
      rw [if_pos hg]
      exact ⟨rfl, rfl⟩
    · by_cases hn : n ≤ rest.length
      · right
        rw [if_neg hg, if_pos hn]
        refine ⟨rfl, ⟨_, rfl, ?_⟩⟩
        simp only [List.length_map, List.length_take]
        omega
      · left
        rw [if_neg hg, if_neg hn]
        exact ⟨rfl, rfl⟩

/-- C6: the range arithmetic of `log_n` is performed on the widened,
unbounded offset: on every successful run with a nonzero size the resulting
memory really covers the true (wide) upper bound `offset + size`, computed
without any wrap at the 256-bit word width. -/
theorem log_n_no_wrap (evm : Evm) (offset size : Nat) (rest : List Nat)
    (n : Nat) (hstack : evm.stack = offset :: size :: rest) (hsz : size ≠ 0)
    (hok : (log_n evm n).2 = none) :
    offset + size ≤ (log_n evm n).1.memory.length := by
  obtain ⟨st, mem, g, a, lgs⟩ := evm
  replace hstack : st = offset :: size :: rest := hstack
  subst hstack
  rw [log_n_cons_cons] at hok ⊢
  by_cases hg : g < log_fee mem offset size n
  · rw [if_pos hg] at hok
    exact absurd hok (by simp)
  · by_cases hn : n ≤ rest.length
    · rw [if_neg hg, if_pos hn]
      exact extend_memory_covers mem offset size hsz
    · rw [if_neg hg, if_neg hn] at hok
      exact absurd hok (by simp)

/-- C7: on every successful run with at least one topic, the appended
record's topics are exactly the next words of the stack after offset and
size, converted to 32-byte values and kept in pop order: the word popped
i-th becomes the record's i-th topic. -/
theorem log_n_topic_order (evm : Evm) (offset size : Nat) (rest : List Nat)
    (n : Nat) (hstack : evm.stack = offset :: size :: rest) (_hn1 : 1 ≤ n)
    (hok : (log_n evm n).2 = none) :
    ∃ r : Log, (log_n evm n).1.logs = evm.logs ++ [r]
      ∧ r.topics = (rest.take n).map to_be_bytes32 := by
  obtain ⟨st, mem, g, a, lgs⟩ := evm
  replace hstack : st = offset :: size :: rest := hstack
  subst hstack
  rw [log_n_cons_cons] at hok ⊢
  by_cases hg : g < log_fee mem offset size n
  · rw [if_pos hg] at hok
    exact absurd hok (by simp)
  · by_cases hn : n ≤ rest.length
    · rw [if_neg hg, if_pos hn]
      exact ⟨_, rfl, rfl⟩
    · rw [if_neg hg, if_neg hn] at hok
      exact absurd hok (by simp)

/-- C8: the fee computed by `log_n` is monotone in the size operand and in
the topic count: enlarging either (all else equal) never decreases it. -/
theorem log_fee_monotone (memory : List Nat) (offset size1 size2 n1 n2 : Nat)
    (hs : size1 ≤ size2) (hn : n1 ≤ n2) :
    log_fee memory offset size1 n1 ≤ log_fee memory offset size2 n2 := by
  unfold log_fee
  have h1 := calculate_gas_extend_memory_mono memory offset size1 size2 hs
  have h2 : GAS_LOG_DATA * size1 ≤ GAS_LOG_DATA * size2 :=
    Nat.mul_le_mul_left _ hs
  have h3 : GAS_LOG_TOPIC * n1 ≤ GAS_LOG_TOPIC * n2 :=
    Nat.mul_le_mul_left _ hn
  omega

/-- C9: the side effects of `log_n` are ordered: an out-of-gas failure
leaves gas, memory and logs untouched; the memory is only ever extended in a
run whose fee debit succeeded (so the gas balance strictly decreased); and
the log sequence is only ever extended in a run that completed successfully. -/
theorem log_n_effect_order (evm : Evm) (n : Nat) :
    ((log_n evm n).2 = some EvmError.outOfGas →
        (log_n evm n).1.gas_left = evm.gas_left
        ∧ (log_n evm n).1.memory = evm.memory
        ∧ (log_n evm n).1.logs = evm.logs)
    ∧ ((log_n evm n).1.memory ≠ evm.memory →
        (log_n evm n).1.gas_left < evm.gas_left)
    ∧ ((log_n evm n).1.logs ≠ evm.logs → (log_n evm n).2 = none) := by
  obtain ⟨st, mem, g, a, lgs⟩ := evm
  match st with
  | [] => simp [log_n_nil]
  | [x] => simp [log_n_single]
  | offset :: size :: rest =>
    rw [log_n_cons_cons]
    by_cases hg : g < log_fee mem offset size n
    · rw [if_pos hg]
      exact ⟨fun _ => ⟨rfl, rfl, rfl⟩, by simp, by simp⟩
    · have hpos := log_fee_pos mem offset size n
      by_cases hn : n ≤ rest.length
      · rw [if_neg hg, if_pos hn]
        refine ⟨by simp, fun _ => ?_, fun _ => rfl⟩
        show g - log_fee mem offset size n < g
        omega
      · rw [if_neg hg, if_neg hn]
        refine ⟨by simp, fun _ => ?_, by simp⟩
        show g - log_fee mem offset size n < g
        omega

/-- C10: each arity-specialized entry point `log0` .. `log4` is definitionally
the shared executor `log_n` applied at the corresponding fixed topic count,
so it has exactly the same effect on every frame. -/
theorem log_variants_specialize (evm : Evm) :
    log0 evm = log_n evm 0 ∧ log1 evm = log_n evm 1 ∧ log2 evm = log_n evm 2
      ∧ log3 evm = log_n evm 3 ∧ log4 evm = log_n evm 4 :=
  ⟨rfl, rfl, rfl, rfl, rfl⟩

/-- C1 witness for the amended theorem, at a concrete two-word stack with
one requested topic. -/
theorem log_n_underflow_amended_witness :
    (log_n ⟨[0, 0], [], 1000, 7, []⟩ 1).2.isSome = true
      ∧ (log_n ⟨[0, 0], [], 1000, 7, []⟩ 1).1.logs = ([] : List Log) :=
  ⟨(log_n_underflow_amended ⟨[0, 0], [], 1000, 7, []⟩ 1 (by decide)).1,
    (log_n_underflow_amended ⟨[0, 0], [], 1000, 7, []⟩ 1 (by decide)).2.1⟩

/-- C2 witness: a concrete successful emit with one topic and four payload
bytes. -/
theorem log_n_success_appends_witness :
    (log_n ⟨[0, 4, 9], [], 10000, 7, []⟩ 1).2 = none :=
  (log_n_success_appends ⟨[0, 4, 9], [], 10000, 7, []⟩ 0 4 [9] 1 rfl
    (by decide) (by decide)).1

/-- C3 witness: the four-term fee at a concrete frame. -/
theorem log_n_fee_four_terms_witness :
    (GAS_LOG + GAS_LOG_DATA * 4 + GAS_LOG_TOPIC * 1
        + calculate_gas_extend_memory [] 0 4 ≤ 10000)
      ∧ (log_n ⟨[0, 4, 9], [], 10000, 7, []⟩ 1).1.gas_left
        = 10000 - (GAS_LOG + GAS_LOG_DATA * 4 + GAS_LOG_TOPIC * 1
            + calculate_gas_extend_memory [] 0 4) :=
  (log_n_fee_four_terms ⟨[0, 4, 9], [], 10000, 7, []⟩ 0 4 [9] 1 rfl
    (by decide)).1

/-- C4 witness: a concrete out-of-gas failure leaving only the offset and
size words consumed. -/
theorem log_n_out_of_gas_witness :
    log_n ⟨[0, 1, 5], [], 0, 7, []⟩ 0
      = (⟨[5], [], 0, 7, []⟩, some EvmError.outOfGas) :=
  log_n_out_of_gas ⟨[0, 1, 5], [], 0, 7, []⟩ 0 1 [5] 0 rfl (by decide)

/-- C6 witness: a concrete successful emit whose memory covers the true
upper bound of the range. -/
theorem log_n_no_wrap_witness :
    0 + 4 ≤ (log_n ⟨[0, 4], [], 1000, 7, []⟩ 0).1.memory.length :=
  log_n_no_wrap ⟨[0, 4], [], 1000, 7, []⟩ 0 4 [] 0 rfl (by decide) (by decide)

/-- C7 witness: a concrete successful one-topic emit whose record topics are
the converted popped words in pop order. -/
theorem log_n_topic_order_witness :
    ∃ r : Log, (log_n ⟨[0, 4, 9], [], 10000, 7, []⟩ 1).1.logs
        = ([] : List Log) ++ [r]
      ∧ r.topics = (([9] : List Nat).take 1).map to_be_bytes32 :=
  log_n_topic_order ⟨[0, 4, 9], [], 10000, 7, []⟩ 0 4 [9] 1 rfl (by decide)
    (by decide)

/-- C8 witness: fee monotonicity at concrete operands. -/
theorem log_fee_monotone_witness :
    log_fee [] 0 1 0 ≤ log_fee [] 0 2 1 :=
  log_fee_monotone [] 0 1 2 0 1 (by decide) (by decide)

/-- C9 witness: at a concrete out-of-gas failure, gas, memory and logs are
untouched. -/
theorem log_n_effect_order_witness :
    (log_n ⟨[0, 1], [], 0, 7, []⟩ 0).1.gas_left = 0
      ∧ (log_n ⟨[0, 1], [], 0, 7, []⟩ 0).1.memory = ([] : List Nat)
      ∧ (log_n ⟨[0, 1], [], 0, 7, []⟩ 0).1.logs = ([] : List Log) :=
  (log_n_effect_order ⟨[0, 1], [], 0, 7, []⟩ 0).1 (by decide)
